import Mathlib

/-!
# Nesto backend — recurrence, task advancement, digest gathering and scheduling

A shallow embedding of the recurrence core of the Nesto household planner
(`backend/app/services/digest_service.py`, `backend/app/services/task_service.py`,
`backend/app/services/event_service.py`, `backend/app/main.py`), together with
theorems settling the specification's claims about it.

Conventions of the embedding:
* Python `datetime.date` / `datetime.datetime` become `Date` / `DateTime` below,
  at second granularity (the services compare and construct datetimes at second
  granularity; `time.max`'s microseconds cannot change any comparison against a
  second-granular operand, so day-end sentinels are modelled as `23:59:59`).
* Python integer floor division on non-negative operands is `Nat` division.
* `datetime + timedelta` is modelled by explicit day/second arithmetic with the
  same rollover behaviour; `replace` with an out-of-range day is modelled by the
  explicit validity test that mirrors the `ValueError` the services catch.
* SQLAlchemy `WHERE` clauses over loaded rows are modelled as `List.filter`
  with SQL three-valued logic collapsed in the usual way (a comparison against
  NULL is falsy).
* `try/except` around a per-user send is modelled with `Except`.
-/

namespace Nesto

/-! ## Calendar primitives (Python `datetime` semantics) -/

/-- Gregorian leap-year test, as `calendar.isleap` / `datetime` use it. -/
def isLeap (y : Int) : Bool := (y % 4 == 0 && y % 100 != 0) || (y % 400 == 0)

/-- Number of days in a month, as `datetime` validates them. -/
def daysInMonth (y : Int) (m : Nat) : Nat :=
  if m = 2 then (if isLeap y then 29 else 28)
  else if m = 4 ∨ m = 6 ∨ m = 9 ∨ m = 11 then 30
  else 31

/-- A calendar date (`datetime.date`): year, month (1–12), day (1–31). -/
structure Date where
  year : Int
  month : Nat
  day : Nat
deriving DecidableEq, Repr

/-- A date is valid when its fields are in `datetime.date`'s ranges. -/
def Date.Valid (d : Date) : Prop :=
  1 ≤ d.month ∧ d.month ≤ 12 ∧ 1 ≤ d.day ∧ d.day ≤ daysInMonth d.year d.month

instance (d : Date) : Decidable d.Valid := by unfold Date.Valid; infer_instance

/-- Python's `date` ordering is lexicographic on (year, month, day). -/
def Date.lt (a b : Date) : Prop :=
  a.year < b.year ∨ (a.year = b.year ∧
    (a.month < b.month ∨ (a.month = b.month ∧ a.day < b.day)))

def Date.le (a b : Date) : Prop :=
  a.year < b.year ∨ (a.year = b.year ∧
    (a.month < b.month ∨ (a.month = b.month ∧ a.day ≤ b.day)))

instance (a b : Date) : Decidable (Date.lt a b) := by unfold Date.lt; infer_instance

instance (a b : Date) : Decidable (Date.le a b) := by unfold Date.le; infer_instance

/-- Linear day count of a civil date (days since 1970-01-01); the standard
civil-calendar conversion, used only to derive weekdays. -/
def Date.toDays (d : Date) : Int :=
  let y : Int := if d.month ≤ 2 then d.year - 1 else d.year
  let era : Int := (if 0 ≤ y then y else y - 399) / 400
  let yoe : Int := y - era * 400
  let mp : Int := (Int.ofNat d.month + 9) % 12
  let doy : Int := (153 * mp + 2) / 5 + (Int.ofNat d.day - 1)
  let doe : Int := yoe * 365 + yoe / 4 - yoe / 100 + doy
  era * 146097 + doe - 719468

/-- Python's `date.weekday()`: Monday = 0 … Sunday = 6
(1970-01-01 was a Thursday, weekday 3). -/
def Date.weekday (d : Date) : Nat := ((d.toDays + 3) % 7).toNat

/-- The successor date, with month/year rollover (`+ timedelta(days=1)`). -/
def Date.next (d : Date) : Date :=
  if d.day < daysInMonth d.year d.month then ⟨d.year, d.month, d.day + 1⟩
  else if d.month < 12 then ⟨d.year, d.month + 1, 1⟩
  else ⟨d.year + 1, 1, 1⟩

/-- `d + timedelta(days=n)` for `n ≥ 0`. -/
def Date.addDays (n : Nat) (d : Date) : Date :=
  match n with
  | 0 => d
  | n + 1 => Date.addDays n d.next

/-! ## Datetimes -/

/-- A `datetime.datetime` at second granularity. -/
structure DateTime where
  date : Date
  hour : Nat
  minute : Nat
  second : Nat
deriving DecidableEq, Repr

/-- Python's `datetime` ordering: lexicographic on (date, hour, minute, second). -/
def DateTime.lt (a b : DateTime) : Prop :=
  Date.lt a.date b.date ∨ (a.date = b.date ∧
    (a.hour < b.hour ∨ (a.hour = b.hour ∧
      (a.minute < b.minute ∨ (a.minute = b.minute ∧ a.second < b.second)))))

def DateTime.le (a b : DateTime) : Prop := DateTime.lt a b ∨ a = b

instance (a b : DateTime) : Decidable (DateTime.lt a b) := by
  unfold DateTime.lt; infer_instance

instance (a b : DateTime) : Decidable (DateTime.le a b) := by
  unfold DateTime.le; infer_instance

/-- Seconds into the day. -/
def DateTime.daySecs (t : DateTime) : Nat := t.hour * 3600 + t.minute * 60 + t.second

/-- Linearization to seconds since the epoch, used to compute `end - start`
as a `timedelta` (an exact number of seconds at our granularity). -/
def DateTime.toSecs (t : DateTime) : Int := 86400 * t.date.toDays + (t.daySecs : Int)

/-- `t + timedelta(seconds=k)`.  The services only ever add a non-negative
duration (`end_time > start_time` is enforced by the event schema); a negative
total is clamped to the same date, which no reachable call exercises. -/
def DateTime.addSecs (t : DateTime) (k : Int) : DateTime :=
  let tot : Int := (t.daySecs : Int) + k
  let totN : Nat := tot.toNat
  let rem : Nat := totN % 86400
  { date := Date.addDays (totN / 86400) t.date,
    hour := rem / 3600, minute := rem % 3600 / 60, second := rem % 60 }

/-- `min` of two datetimes, as Python's `min` picks the smaller (first on ties). -/
def DateTime.minD (a b : DateTime) : DateTime := if DateTime.le a b then a else b

/-! ## dateutil `relativedelta` arithmetic (task service) -/

/-- `date + relativedelta(months=k)`: shift the month with year carry, then
clamp the day to the last day of the target month (Jan 31 + 1 month → Feb 28). -/
def Date.addMonths (k : Nat) (d : Date) : Date :=
  let m0 : Nat := d.month - 1 + k
  let y : Int := d.year + (m0 / 12 : Nat)
  let m : Nat := m0 % 12 + 1
  ⟨y, m, min d.day (daysInMonth y m)⟩

/-- `date + relativedelta(years=k)`: shift the year, clamping Feb 29 to Feb 28
in a non-leap target year. -/
def Date.addYears (k : Nat) (d : Date) : Date :=
  let y : Int := d.year + (k : Int)
  ⟨y, d.month, min d.day (daysInMonth y d.month)⟩

/-! ## Event model (`app/models/event.py`) -/

/-- An event row; `recurrence_rule` is a nullable `Text` column, so it is an
`Option String` here. -/
structure Event where
  id : String
  householdId : String
  title : String
  description : Option String
  startTime : DateTime
  endTime : DateTime
  allDay : Bool
  assignedTo : Option String
  createdBy : String
  recurrenceRule : Option String
  recurrenceInterval : Nat
  recurrenceEnd : Option Date
  createdAt : DateTime
deriving DecidableEq, Repr

/-! ## Recurrence expansion (`digest_service._advance_date`,
`digest_service.expand_event_occurrences`) -/

/-- The `while candidate.weekday() != anchor_dow: candidate += timedelta(days=1)`
walk of `_advance_date`'s monthly branch.  The Python loop always terminates
within at most 7 steps (the weekday cycles with period 7), which the fuel of 7
realizes; `walkToWeekday_spec` below proves the fuel is never exhausted when a
matching weekday is reachable. -/
def walkToWeekday : Nat → DateTime → Nat → DateTime
  | 0, c, _ => c
  | n + 1, c, dow =>
    if c.date.weekday = dow then c else walkToWeekday n { c with date := c.date.next } dow

/-- `digest_service._advance_date(current, rule, interval, anchor)`.

The yearly branch models `current.replace(year=current.year + interval)`
together with the `except ValueError: … day=28` handler: `replace` raises
exactly when the (unchanged) day exceeds the target month's length. -/
def advanceDate (current : DateTime) (rule : String) (interval : Nat)
    (anchor : DateTime) : DateTime :=
  if rule = "daily" then { current with date := Date.addDays interval current.date }
  else if rule = "weekly" then
    { current with date := Date.addDays (7 * interval) current.date }
  else if rule = "monthly" then
    -- anchor_week = math.ceil(anchor.day / 7); anchor_dow = anchor.weekday()
    let anchorWeek : Nat := (anchor.date.day + 6) / 7
    let anchorDow : Nat := anchor.date.weekday
    -- month = current.month - 1 + interval; year += month // 12; month = month % 12 + 1
    let m0 : Nat := current.date.month - 1 + interval
    let year : Int := current.date.year + (m0 / 12 : Nat)
    let month : Nat := m0 % 12 + 1
    -- candidate = current.replace(year, month, day=1, hour/minute/second from anchor)
    let c0 : DateTime := ⟨⟨year, month, 1⟩, anchor.hour, anchor.minute, anchor.second⟩
    let c1 := walkToWeekday 7 c0 anchorDow
    let c2 : DateTime := { c1 with date := Date.addDays (7 * (anchorWeek - 1)) c1.date }
    if c2.date.month ≠ month then
      -- one corrective pass: next_month = month + interval, re-derive and redo
      let nm : Nat := month + interval
      let ny : Int := year + ((nm - 1) / 12 : Nat)
      let nm2 : Nat := (nm - 1) % 12 + 1
      let c3 : DateTime := { c2 with date := ⟨ny, nm2, 1⟩ }
      let c4 := walkToWeekday 7 c3 anchorDow
      { c4 with date := Date.addDays (7 * (anchorWeek - 1)) c4.date }
    else c2
  else if rule = "yearly" then
    let ny : Int := current.date.year + (interval : Int)
    if current.date.day ≤ daysInMonth ny current.date.month then
      { current with date := ⟨ny, current.date.month, current.date.day⟩ }
    else
      { current with date := ⟨ny, current.date.month, 28⟩ }
  else current

/-- One emitted occurrence: the `(event, occurrence_start, occurrence_end)`
tuples of `expand_event_occurrences`. -/
abbrev Occurrence := Event × DateTime × DateTime

/-- The `while cursor <= effective_end and iterations < 1000` loop of
`expand_event_occurrences`, for one event.  `fuel = 1000 - iterations`; the
returned `Nat` is the number of loop iterations executed. -/
def expandLoop (ev : Event) (rule : String) (interval : Nat) (duration : Int)
    (effectiveEnd rangeStart rangeEnd : DateTime) :
    Nat → DateTime → List Occurrence × Nat
  | 0, _ => ([], 0)
  | fuel + 1, cursor =>
    if DateTime.le cursor effectiveEnd then
      let occEnd := cursor.addSecs duration
      let emitted : List Occurrence :=
        if DateTime.le rangeStart occEnd ∧ DateTime.le cursor rangeEnd then
          [(ev, cursor, occEnd)]
        else []
      let rest := expandLoop ev rule interval duration effectiveEnd rangeStart rangeEnd
        fuel (advanceDate cursor rule interval ev.startTime)
      (emitted ++ rest.1, rest.2 + 1)
    else ([], 0)

/-- Expansion of a single event definition: the body of the `for event in
events` loop of `expand_event_occurrences`.  `if not event.recurrence_rule`
is Python truthiness: `None` or the empty string both take the
single-occurrence branch. -/
def expandEvent (rangeStart rangeEnd : DateTime) (ev : Event) : List Occurrence :=
  let start := ev.startTime
  let endT := ev.endTime
  let duration : Int := endT.toSecs - start.toSecs
  let ruleTruthy : Option String :=
    match ev.recurrenceRule with
    | none => none
    | some r => if r = "" then none else some r
  match ruleTruthy with
  | none =>
    if DateTime.le rangeStart endT ∧ DateTime.le start rangeEnd then [(ev, start, endT)]
    else []
  | some rule =>
    let recEnd : DateTime :=
      match ev.recurrenceEnd with
      | some d => ⟨d, 23, 59, 59⟩
      | none => rangeEnd
    let effectiveEnd := DateTime.minD recEnd rangeEnd
    let interval : Nat := if ev.recurrenceInterval = 0 then 1 else ev.recurrenceInterval
    (expandLoop ev rule interval duration effectiveEnd rangeStart rangeEnd 1000 start).1

/-- Stable insertion into a list sorted by occurrence start (ties keep the
existing element first, as Python's stable `list.sort` does). -/
def sortInsert (o : Occurrence) : List Occurrence → List Occurrence
  | [] => [o]
  | x :: xs =>
    if DateTime.le o.2.1 x.2.1 then o :: x :: xs else x :: sortInsert o xs

/-- Stable sort by occurrence start: `occurrences.sort(key=lambda x: x[1])`. -/
def sortByStart : List Occurrence → List Occurrence
  | [] => []
  | x :: xs => sortInsert x (sortByStart xs)

/-- `digest_service.expand_event_occurrences(events, range_start, range_end)`. -/
def expandEventOccurrences (events : List Event) (rangeStart rangeEnd : DateTime) :
    List Occurrence :=
  sortByStart (events.flatMap (expandEvent rangeStart rangeEnd))

/-! ## Task model and task service (`app/models/task.py` + migration
`f5a2c8d91e03`, `app/services/task_service.py`) -/

/-- A task row.  `recurrence_interval` is a non-nullable integer column with
server default 1; `status` a non-nullable text column. -/
structure Task where
  id : String
  householdId : String
  title : String
  description : Option String
  status : String
  priority : Nat
  assignedTo : Option String
  createdBy : String
  dueDate : Option Date
  completedAt : Option DateTime
  category : Option String
  recurrenceRule : Option String
  recurrenceInterval : Nat
  recurrenceEnd : Option Date
  lastCompletedAt : Option DateTime
  createdAt : DateTime
deriving DecidableEq, Repr

/-- `task_service._advance_due_date(current_due, rule, interval)`. -/
def advanceDueDate (currentDue : Date) (rule : String) (interval : Nat) : Date :=
  if rule = "daily" then Date.addDays interval currentDue
  else if rule = "weekly" then Date.addDays (7 * interval) currentDue
  else if rule = "monthly" then Date.addMonths interval currentDue
  else if rule = "yearly" then Date.addYears interval currentDue
  else currentDue

/-- One `key := value` entry of the `updates` dict produced by
`TaskUpdate.model_dump(exclude_unset=True)`.  Each constructor carries the
field's value type; `key` below recovers the dict key, so that the
`key in _UPDATABLE_FIELDS` test can be modelled exactly as written.  The
constructors beyond the schema's fields (`id`, `householdId`, `createdBy`,
`createdAt`, `completedAt`, `lastCompletedAt`) let the theorems quantify over
payloads that name non-updatable fields.  An explicit JSON `null` for a field
whose column is non-nullable (e.g. `status=None`) is not modelled; every claim
concerns non-null payload values. -/
inductive TaskFieldVal where
  | title (v : String)
  | description (v : Option String)
  | status (v : String)
  | priority (v : Nat)
  | assignedTo (v : Option String)
  | dueDate (v : Option Date)
  | category (v : Option String)
  | recurrenceRule (v : Option String)
  | recurrenceInterval (v : Nat)
  | recurrenceEnd (v : Option Date)
  | id (v : String)
  | householdId (v : String)
  | createdBy (v : String)
  | createdAt (v : DateTime)
  | completedAt (v : Option DateTime)
  | lastCompletedAt (v : Option DateTime)
deriving DecidableEq, Repr

/-- The dict key of an update entry (pydantic field names). -/
def TaskFieldVal.key : TaskFieldVal → String
  | .title _ => "title"
  | .description _ => "description"
  | .status _ => "status"
  | .priority _ => "priority"
  | .assignedTo _ => "assigned_to"
  | .dueDate _ => "due_date"
  | .category _ => "category"
  | .recurrenceRule _ => "recurrence_rule"
  | .recurrenceInterval _ => "recurrence_interval"
  | .recurrenceEnd _ => "recurrence_end"
  | .id _ => "id"
  | .householdId _ => "household_id"
  | .createdBy _ => "created_by"
  | .createdAt _ => "created_at"
  | .completedAt _ => "completed_at"
  | .lastCompletedAt _ => "last_completed_at"

/-- `task_service._UPDATABLE_FIELDS`. -/
def taskUpdatableFields : List String :=
  ["title", "description", "status", "priority", "assigned_to", "due_date",
   "category", "recurrence_rule", "recurrence_interval", "recurrence_end"]

/-- `setattr(task, key, value)`. -/
def Task.setField (t : Task) : TaskFieldVal → Task
  | .title v => { t with title := v }
  | .description v => { t with description := v }
  | .status v => { t with status := v }
  | .priority v => { t with priority := v }
  | .assignedTo v => { t with assignedTo := v }
  | .dueDate v => { t with dueDate := v }
  | .category v => { t with category := v }
  | .recurrenceRule v => { t with recurrenceRule := v }
  | .recurrenceInterval v => { t with recurrenceInterval := v }
  | .recurrenceEnd v => { t with recurrenceEnd := v }
  | .id v => { t with id := v }
  | .householdId v => { t with householdId := v }
  | .createdBy v => { t with createdBy := v }
  | .createdAt v => { t with createdAt := v }
  | .completedAt v => { t with completedAt := v }
  | .lastCompletedAt v => { t with lastCompletedAt := v }

/-- The copy loop of `update_task`:
`for key, value in updates.items(): if key in _UPDATABLE_FIELDS: setattr(...)`. -/
def applyTaskUpdates (t : Task) (updates : List TaskFieldVal) : Task :=
  updates.foldl
    (fun acc u => if taskUpdatableFields.contains u.key then acc.setField u else acc) t

/-- `updates.get("status")` on the dict (dict keys are unique, so the first
entry with key `"status"` is the value). -/
def updatesGetStatus (updates : List TaskFieldVal) : Option String :=
  match updates.find? (fun u => u.key = "status") with
  | some (.status v) => some v
  | _ => none

/-- The pure state transformation of `task_service.update_task` on a found
task (the 404 path and the commit/refresh are store concerns outside the
core).  `now` stands for `datetime.now(timezone.utc)`.  Python truthiness:
`task.recurrence_rule and task.due_date` requires a non-`None`, non-empty
rule and a non-`None` due date; a status string from the schema's `Literal`
is always truthy. -/
def updateTask (t : Task) (updates : List TaskFieldVal) (now : DateTime) : Task :=
  let task := applyTaskUpdates t updates
  match updatesGetStatus updates with
  | some s =>
    if s = "done" then
      match task.recurrenceRule, task.dueDate with
      | some rule, some due =>
        if rule ≠ "" then
          let nextDue := advanceDueDate due rule task.recurrenceInterval
          match task.recurrenceEnd with
          | some e =>
            if Date.lt e nextDue then
              -- recurrence exhausted: complete normally
              { task with completedAt := some now }
            else
              { task with dueDate := some nextDue, lastCompletedAt := some now,
                          status := "pending", completedAt := none }
          | none =>
            { task with dueDate := some nextDue, lastCompletedAt := some now,
                        status := "pending", completedAt := none }
        else if task.completedAt = none then { task with completedAt := some now }
        else task
      | _, _ =>
        if task.completedAt = none then { task with completedAt := some now }
        else task
    else { task with completedAt := none }
  | none => task

/-! ## Event service (`app/services/event_service.py`) -/

/-- One entry of the `updates` dict of `update_event`, mirroring
`EventUpdate.model_dump(exclude_unset=True)` plus non-updatable field names. -/
inductive EventFieldVal where
  | title (v : String)
  | description (v : Option String)
  | startTime (v : DateTime)
  | endTime (v : DateTime)
  | allDay (v : Bool)
  | assignedTo (v : Option String)
  | recurrenceRule (v : Option String)
  | recurrenceInterval (v : Nat)
  | recurrenceEnd (v : Option Date)
  | id (v : String)
  | householdId (v : String)
  | createdBy (v : String)
  | createdAt (v : DateTime)
deriving DecidableEq, Repr

def EventFieldVal.key : EventFieldVal → String
  | .title _ => "title"
  | .description _ => "description"
  | .startTime _ => "start_time"
  | .endTime _ => "end_time"
  | .allDay _ => "all_day"
  | .assignedTo _ => "assigned_to"
  | .recurrenceRule _ => "recurrence_rule"
  | .recurrenceInterval _ => "recurrence_interval"
  | .recurrenceEnd _ => "recurrence_end"
  | .id _ => "id"
  | .householdId _ => "household_id"
  | .createdBy _ => "created_by"
  | .createdAt _ => "created_at"

/-- `event_service._UPDATABLE_FIELDS`. -/
def eventUpdatableFields : List String :=
  ["title", "description", "start_time", "end_time", "all_day",
   "assigned_to", "recurrence_rule", "recurrence_interval", "recurrence_end"]

/-- `setattr(event, key, value)`. -/
def Event.setField (e : Event) : EventFieldVal → Event
  | .title v => { e with title := v }
  | .description v => { e with description := v }
  | .startTime v => { e with startTime := v }
  | .endTime v => { e with endTime := v }
  | .allDay v => { e with allDay := v }
  | .assignedTo v => { e with assignedTo := v }
  | .recurrenceRule v => { e with recurrenceRule := v }
  | .recurrenceInterval v => { e with recurrenceInterval := v }
  | .recurrenceEnd v => { e with recurrenceEnd := v }
  | .id v => { e with id := v }
  | .householdId v => { e with householdId := v }
  | .createdBy v => { e with createdBy := v }
  | .createdAt v => { e with createdAt := v }

/-- The pure state transformation of `event_service.update_event` on a found
event: the copy loop with the allow-list (the household-membership check can
only raise, never mutate). -/
def updateEvent (e : Event) (updates : List EventFieldVal) : Event :=
  updates.foldl
    (fun acc u => if eventUpdatableFields.contains u.key then acc.setField u else acc) e

/-! ## Users and the digest runner loops (`app/models/user.py`,
`digest_service.run_daily_digest` / `run_weekly_digest`) -/

structure User where
  id : String
  email : String
  emailDigestDaily : Bool
  emailDigestWeekly : Bool
deriving DecidableEq, Repr

/-- Whether an `Except` result is a success. -/
def isOk {ε α : Type} : Except ε α → Bool
  | .ok _ => true
  | .error _ => false

/-- The `for user in users: try: … sent += 1 except: log` loop shared by both
runners.  `process u` stands for the composite
gather-data / render / `send_digest_email` step for one user, which either
completes (`.ok`) or raises (`.error`); the `except Exception` swallows the
error and the loop continues.  Returns `sent` and the list of users that were
processed (reached, in order). -/
def digestSendLoop (process : User → Except String Unit) :
    List User → Nat → Nat × List User
  | [], sent => (sent, [])
  | u :: rest, sent =>
    match process u with
    | .ok _ =>
      let r := digestSendLoop process rest (sent + 1)
      (r.1, u :: r.2)
    | .error _ =>
      let r := digestSendLoop process rest sent
      (r.1, u :: r.2)

/-- `run_daily_digest`: selects users with `email_digest_daily = TRUE`, then
runs the send loop; returns the count of users sent without an exception
(with, for the theorems, the list of users actually processed). -/
def runDailyDigest (users : List User) (process : User → Except String Unit) :
    Nat × List User :=
  digestSendLoop process (users.filter (·.emailDigestDaily)) 0

/-- `run_weekly_digest`, identically over `email_digest_weekly`. -/
def runWeeklyDigest (users : List User) (process : User → Except String Unit) :
    Nat × List User :=
  digestSendLoop process (users.filter (·.emailDigestWeekly)) 0

/-! ## Digest scheduler (`app/main.py::_digest_scheduler_loop`) -/

/-- The module-level `_last_daily_sent` / `_last_weekly_sent` globals. -/
structure SchedulerState where
  lastDailySent : Option Date
  lastWeeklySent : Option Date
deriving DecidableEq, Repr

/-- One tick's observation: `now = datetime.now()` split into date and
clock, plus the configuration read inside the loop body. -/
structure TickInput where
  today : Date
  hour : Nat
  minute : Nat
  smtpHost : String
  dailyHour : Nat
  weeklyHour : Nat
deriving DecidableEq, Repr

/-- One iteration of `_digest_scheduler_loop` (after the sleep): evaluates the
daily and weekly guards in order and updates the globals when a run fires.
Returns (daily fired?, weekly fired?, new state).  `settings.smtp_host` is
truthy iff non-empty. -/
def schedulerTick (st : SchedulerState) (i : TickInput) :
    Bool × Bool × SchedulerState :=
  let dailyFire : Bool :=
    i.hour == i.dailyHour && i.minute == 0 &&
      !(st.lastDailySent == some i.today) && !(i.smtpHost == "")
  let st1 := if dailyFire then { st with lastDailySent := some i.today } else st
  let weeklyFire : Bool :=
    i.today.weekday == 6 && i.hour == i.weeklyHour && i.minute == 0 &&
      !(st1.lastWeeklySent == some i.today) && !(i.smtpHost == "")
  let st2 := if weeklyFire then { st1 with lastWeeklySent := some i.today } else st1
  (dailyFire, weeklyFire, st2)

/-- Repeated ticks: the fire flags of each tick, with the final state. -/
def schedulerRun (st : SchedulerState) : List TickInput → List (Bool × Bool) × SchedulerState
  | [] => ([], st)
  | i :: rest =>
    let r := schedulerTick st i
    let rr := schedulerRun r.2.2 rest
    ((r.1, r.2.1) :: rr.1, rr.2)

/-! ## Daily digest data gathering (`digest_service.get_daily_digest_data`) -/

/-- The `WHERE` predicate of the "yesterday's completions" query: household
match, and `completed_at` or `last_completed_at` within
`[yesterday_start, yesterday_end]`.  A NULL timestamp makes its comparison
falsy, as in SQL. -/
def completedYesterdayPred (hhId : String) (yStart yEnd : DateTime) (t : Task) : Bool :=
  t.householdId == hhId &&
    ((match t.completedAt with
      | some c => decide (DateTime.le yStart c) && decide (DateTime.le c yEnd)
      | none => false) ||
     (match t.lastCompletedAt with
      | some c => decide (DateTime.le yStart c) && decide (DateTime.le c yEnd)
      | none => false))

/-- The "yesterday's completions" query of `get_daily_digest_data`, as a
filter over the household's task rows. -/
def completedYesterday (tasks : List Task) (hhId : String) (yStart yEnd : DateTime) :
    List Task :=
  tasks.filter (completedYesterdayPred hhId yStart yEnd)

/-- The "tasks due today (not done)" query of `get_daily_digest_data`. -/
def tasksDueToday (tasks : List Task) (hhId : String) (today : Date) : List Task :=
  tasks.filter (fun t =>
    t.householdId == hhId && t.dueDate == some today && !(t.status == "done"))

/-! ## Concrete instances used in the theorems -/

/-- The spec's monthly scenario event: `start=2026-03-03T09:00` (the 1st
Tuesday of March 2026), one hour long, monthly interval 1, no recurrence end. -/
def scenarioEvent : Event :=
  { id := "ev-monthly"
    householdId := "hh1"
    title := "standup"
    description := none
    startTime := ⟨⟨2026, 3, 3⟩, 9, 0, 0⟩
    endTime := ⟨⟨2026, 3, 3⟩, 10, 0, 0⟩
    allDay := false
    assignedTo := none
    createdBy := "u1"
    recurrenceRule := some "monthly"
    recurrenceInterval := 1
    recurrenceEnd := none
    createdAt := ⟨⟨2026, 1, 1⟩, 0, 0, 0⟩ }

/-- A yearly event anchored on Feb 29 of the leap year 2024. -/
def leapEvent : Event :=
  { scenarioEvent with
    id := "ev-yearly"
    startTime := ⟨⟨2024, 2, 29⟩, 9, 0, 0⟩
    endTime := ⟨⟨2024, 2, 29⟩, 10, 0, 0⟩
    recurrenceRule := some "yearly" }

/-- An event whose recurrence rule matches none of the four kinds, so
`_advance_date` returns the cursor unchanged and the expansion loop can only
be stopped by the iteration cap. -/
def stuckEvent : Event := { scenarioEvent with id := "ev-stuck", recurrenceRule := some "custom" }

/-- A pending monthly task due on Jan 31, 2026 (the spec's rollover scenario). -/
def resetTask : Task :=
  { id := "t-reset"
    householdId := "hh1"
    title := "pay rent"
    description := none
    status := "pending"
    priority := 3
    assignedTo := none
    createdBy := "u1"
    dueDate := some ⟨2026, 1, 31⟩
    completedAt := none
    category := none
    recurrenceRule := some "monthly"
    recurrenceInterval := 1
    recurrenceEnd := none
    lastCompletedAt := none
    createdAt := ⟨⟨2026, 1, 1⟩, 0, 0, 0⟩ }

/-- A weekly task due 2026-02-25 whose recurrence ends 2026-03-01 (the spec's
termination scenario: the next occurrence 2026-03-04 exceeds the end). -/
def finishTask : Task :=
  { resetTask with
    id := "t-finish"
    dueDate := some ⟨2026, 2, 25⟩
    recurrenceRule := some "weekly"
    recurrenceEnd := some ⟨2026, 3, 1⟩ }

/-- A recurring task that was completed yesterday (2026-05-01 14:00) and reset
to `pending` with its new due date today (2026-05-02). -/
def resetDoneTask : Task :=
  { resetTask with
    id := "t-done-yesterday"
    dueDate := some ⟨2026, 5, 2⟩
    lastCompletedAt := some ⟨⟨2026, 5, 1⟩, 14, 0, 0⟩ }

/-! # Theorems -/

/-! ### Basic order and arithmetic lemmas -/

theorem Date.le_refl (d : Date) : Date.le d d := by
  unfold Date.le; omega

theorem Date.le_trans {a b c : Date} (h1 : Date.le a b) (h2 : Date.le b c) :
    Date.le a c := by
  unfold Date.le at *
  rcases h1 with h1 | ⟨e1, h1⟩ <;> rcases h2 with h2 | ⟨e2, h2⟩ <;>
    first
      | (left; omega)
      | (rcases h1 with h1 | ⟨e1m, h1⟩ <;> rcases h2 with h2 | ⟨e2m, h2⟩ <;>
          (right; constructor; omega; omega))

theorem Date.lt_of_lt_of_le {a b c : Date} (h1 : Date.lt a b) (h2 : Date.le b c) :
    Date.lt a c := by
  unfold Date.lt Date.le at *
  rcases h1 with h1 | ⟨e1, h1⟩ <;> rcases h2 with h2 | ⟨e2, h2⟩ <;>
    first
      | (left; omega)
      | (rcases h1 with h1 | ⟨e1m, h1⟩ <;> rcases h2 with h2 | ⟨e2m, h2⟩ <;>
          (right; constructor; omega; omega))

theorem Date.lt_next (d : Date) : Date.lt d d.next := by
  unfold Date.next Date.lt
  split
  · exact Or.inr ⟨rfl, Or.inr ⟨rfl, Nat.lt_succ_self _⟩⟩
  · split
    · exact Or.inr ⟨rfl, Or.inl (Nat.lt_succ_self _)⟩
    · exact Or.inl (lt_add_one d.year)

theorem Date.le_next (d : Date) : Date.le d d.next := by
  have h := Date.lt_next d
  unfold Date.lt at h; unfold Date.le
  rcases h with h | ⟨e, h | ⟨em, h⟩⟩
  · left; omega
  · right; exact ⟨e, Or.inl h⟩
  · right; exact ⟨e, Or.inr ⟨em, by omega⟩⟩

theorem Date.le_addDays (n : Nat) (d : Date) : Date.le d (Date.addDays n d) := by
  induction n generalizing d with
  | zero => exact Date.le_refl d
  | succ n ih => exact Date.le_trans (Date.le_next d) (ih d.next)

theorem Date.lt_addDays (n : Nat) (hn : 1 ≤ n) (d : Date) :
    Date.lt d (Date.addDays n d) := by
  obtain ⟨m, rfl⟩ : ∃ m, n = m + 1 := ⟨n - 1, by omega⟩
  have : Date.addDays (m + 1) d = Date.addDays m d.next := rfl
  rw [this]
  exact Date.lt_of_lt_of_le (Date.lt_next d) (Date.le_addDays m d.next)

theorem daysInMonth_ge (y : Int) (m : Nat) : 28 ≤ daysInMonth y m := by
  unfold daysInMonth
  split
  · split <;> omega
  · split <;> omega

/-- While the day stays within the month, `next` only increments the day. -/
theorem Date.next_in_month {d : Date} (h : d.day < daysInMonth d.year d.month) :
    d.next = ⟨d.year, d.month, d.day + 1⟩ := by
  unfold Date.next
  simp [h]

/-- While it stays within the month, `addDays` only adds to the day. -/
theorem Date.addDays_in_month (n : Nat) (d : Date)
    (h : d.day + n ≤ daysInMonth d.year d.month) :
    Date.addDays n d = ⟨d.year, d.month, d.day + n⟩ := by
  induction n generalizing d with
  | zero => simp [Date.addDays]
  | succ n ih =>
    have hlt : d.day < daysInMonth d.year d.month := by omega
    have hnext := Date.next_in_month hlt
    show Date.addDays n d.next = _
    rw [hnext]
    have := ih ⟨d.year, d.month, d.day + 1⟩ (by simpa using by omega)
    simpa [Nat.add_assoc, Nat.add_comm 1 n] using this

/-- `toDays` is linear in the day field within a fixed month. -/
theorem Date.toDays_day (y : Int) (m d : Nat) :
    Date.toDays ⟨y, m, d⟩ = Date.toDays ⟨y, m, 1⟩ + (Int.ofNat d - 1) := by
  unfold Date.toDays
  simp only
  ring

theorem Date.weekday_lt (d : Date) : d.weekday < 7 := by
  unfold Date.weekday
  omega

/-- Within a month, the weekday advances with the day, in Python's
Monday-is-0 convention. -/
theorem Date.weekday_day (y : Int) (m d : Nat) (hd : 1 ≤ d) :
    Date.weekday ⟨y, m, d⟩ = (Date.weekday ⟨y, m, 1⟩ + (d - 1)) % 7 := by
  unfold Date.weekday
  have h := Date.toDays_day y m d
  rw [h]
  simp only [Int.ofNat_eq_coe]
  omega


theorem Date.lt_addMonths (k : Nat) (hk : 1 ≤ k) (d : Date) (hm : 1 ≤ d.month) :
    Date.lt d (Date.addMonths k d) := by
  unfold Date.addMonths Date.lt
  simp only
  omega

theorem Date.lt_addYears (k : Nat) (hk : 1 ≤ k) (d : Date) :
    Date.lt d (Date.addYears k d) := by
  unfold Date.addYears Date.lt
  simp only
  omega

/-! ### Sorting preserves membership and length -/

theorem sortInsert_mem (o a : Occurrence) (l : List Occurrence) :
    a ∈ sortInsert o l ↔ a = o ∨ a ∈ l := by
  induction l with
  | nil => simp [sortInsert]
  | cons x xs ih =>
    unfold sortInsert
    split
    · simp [List.mem_cons]
    · simp [List.mem_cons, ih]
      tauto

theorem sortByStart_mem (a : Occurrence) (l : List Occurrence) :
    a ∈ sortByStart l ↔ a ∈ l := by
  induction l with
  | nil => simp [sortByStart]
  | cons x xs ih => simp [sortByStart, sortInsert_mem, ih, List.mem_cons]

theorem sortInsert_length (o : Occurrence) (l : List Occurrence) :
    (sortInsert o l).length = l.length + 1 := by
  induction l with
  | nil => rfl
  | cons x xs ih =>
    unfold sortInsert
    split
    · simp
    · simp [ih]

theorem sortByStart_length (l : List Occurrence) :
    (sortByStart l).length = l.length := by
  induction l with
  | nil => rfl
  | cons x xs ih => simp [sortByStart, sortInsert_length, ih]

/-! ### Expansion loop lemmas -/

theorem expandLoop_count_le (ev : Event) (rule : String) (interval : Nat)
    (duration : Int) (effEnd rs re : DateTime) :
    ∀ (fuel : Nat) (cursor : DateTime),
      (expandLoop ev rule interval duration effEnd rs re fuel cursor).2 ≤ fuel ∧
      (expandLoop ev rule interval duration effEnd rs re fuel cursor).1.length ≤
        (expandLoop ev rule interval duration effEnd rs re fuel cursor).2 := by
  intro fuel
  induction fuel with
  | zero => intro cursor; exact ⟨Nat.le_refl _, Nat.le_refl _⟩
  | succ n ih =>
    intro cursor
    unfold expandLoop
    split
    · have h := ih (advanceDate cursor rule interval ev.startTime)
      constructor
      · simp only
        omega
      · simp only [List.length_append]
        split <;> simp <;> omega
    · exact ⟨Nat.zero_le _, Nat.le_refl _⟩

/-- Every occurrence emitted by the loop passed the window guard. -/
theorem expandLoop_mem_guard (ev : Event) (rule : String) (interval : Nat)
    (duration : Int) (effEnd rs re : DateTime) :
    ∀ (fuel : Nat) (cursor : DateTime) (o : Occurrence),
      o ∈ (expandLoop ev rule interval duration effEnd rs re fuel cursor).1 →
      DateTime.le rs o.2.2 ∧ DateTime.le o.2.1 re := by
  intro fuel
  induction fuel with
  | zero => intro cursor o h; simp [expandLoop] at h
  | succ n ih =>
    intro cursor o h
    unfold expandLoop at h
    split at h
    · simp only [List.mem_append] at h
      rcases h with h | h
      · split at h
        · rename_i hguard
          simp only [List.mem_singleton] at h
          subst h
          exact hguard
        · simp at h
      · exact ih _ o h
    · simp at h

/-- Every occurrence emitted by the loop satisfies the loop's cursor
invariant, provided the advancement preserves it. -/
theorem expandLoop_inv (P : DateTime → Prop) (ev : Event) (rule : String)
    (interval : Nat) (duration : Int) (effEnd rs re : DateTime)
    (hP : ∀ c, P c → P (advanceDate c rule interval ev.startTime)) :
    ∀ (fuel : Nat) (cursor : DateTime), P cursor →
      ∀ o ∈ (expandLoop ev rule interval duration effEnd rs re fuel cursor).1,
        P o.2.1 := by
  intro fuel
  induction fuel with
  | zero => intro cursor _ o h; simp [expandLoop] at h
  | succ n ih =>
    intro cursor hc o h
    unfold expandLoop at h
    split at h
    · simp only [List.mem_append] at h
      rcases h with h | h
      · split at h
        · simp only [List.mem_singleton] at h
          subst h
          exact hc
        · simp at h
      · exact ih _ (hP cursor hc) o h
    · simp at h

/-- When the rule cannot advance the cursor and the cursor stays eligible and
inside the window, the loop runs until the fuel (the iteration cap) is
exhausted, emitting one occurrence per iteration. -/
theorem expandLoop_stuck (ev : Event) (rule : String) (interval : Nat)
    (duration : Int) (effEnd rs re : DateTime) (cursor : DateTime)
    (hadv : advanceDate cursor rule interval ev.startTime = cursor)
    (hle : DateTime.le cursor effEnd)
    (hguard : DateTime.le rs (cursor.addSecs duration) ∧ DateTime.le cursor re) :
    ∀ fuel : Nat,
      (expandLoop ev rule interval duration effEnd rs re fuel cursor).1.length = fuel ∧
      (expandLoop ev rule interval duration effEnd rs re fuel cursor).2 = fuel := by
  intro fuel
  induction fuel with
  | zero => exact ⟨rfl, rfl⟩
  | succ n ih =>
    unfold expandLoop
    rw [if_pos hle]
    simp only [hadv, if_pos hguard, List.length_append, List.length_singleton]
    exact ⟨by rw [ih.1]; omega, by rw [ih.2]⟩

/-! ### Digest runner loop -/

theorem isOk_ok {ε α : Type} (v : α) : isOk (Except.ok v : Except ε α) = true := rfl

theorem isOk_error {ε α : Type} (e : ε) : isOk (Except.error e : Except ε α) = false := rfl

theorem digestSendLoop_spec (process : User → Except String Unit) :
    ∀ (l : List User) (sent : Nat),
      (digestSendLoop process l sent).1
          = sent + (l.filter (fun u => isOk (process u))).length ∧
      (digestSendLoop process l sent).2 = l := by
  intro l
  induction l with
  | nil => intro sent; simp [digestSendLoop]
  | cons u rest ih =>
    intro sent
    cases hp : process u with
    | ok v =>
      have h := ih (sent + 1)
      simp only [digestSendLoop, hp, List.filter_cons, isOk_ok, if_true]
      refine ⟨?_, by simp [h.2]⟩
      rw [h.1]
      simp only [List.length_cons]
      omega
    | error e =>
      have h := ih sent
      simp only [digestSendLoop, hp, List.filter_cons, isOk_error]
      refine ⟨?_, by simp [h.2]⟩
      rw [h.1]
      simp

/-! ### Update-loop frame lemmas -/

/-- The `update_task` copy loop never writes the fields outside
`_UPDATABLE_FIELDS`, whatever keys the payload names. -/
theorem applyTaskUpdates_frame (us : List TaskFieldVal) :
    ∀ t : Task,
      (applyTaskUpdates t us).id = t.id ∧
      (applyTaskUpdates t us).householdId = t.householdId ∧
      (applyTaskUpdates t us).createdBy = t.createdBy ∧
      (applyTaskUpdates t us).createdAt = t.createdAt ∧
      (applyTaskUpdates t us).completedAt = t.completedAt ∧
      (applyTaskUpdates t us).lastCompletedAt = t.lastCompletedAt := by
  induction us with
  | nil => intro t; exact ⟨rfl, rfl, rfl, rfl, rfl, rfl⟩
  | cons u rest ih =>
    intro t
    have hstep : applyTaskUpdates t (u :: rest)
        = applyTaskUpdates
            (if taskUpdatableFields.contains u.key then t.setField u else t) rest := rfl
    rw [hstep]
    have h := ih (if taskUpdatableFields.contains u.key then t.setField u else t)
    cases u <;>
      simp only [TaskFieldVal.key, taskUpdatableFields, List.contains, Task.setField] at h ⊢ <;>
      exact h

/-- A payload without a given key leaves that field's value alone; stated for
the fields the claims track (`due_date` for C4's "unchanged" conclusion and
`status` for the no-status-update case). -/
theorem applyTaskUpdates_no_due (us : List TaskFieldVal)
    (h : ∀ u ∈ us, u.key ≠ "due_date") :
    ∀ t : Task, (applyTaskUpdates t us).dueDate = t.dueDate := by
  induction us with
  | nil => intro t; rfl
  | cons u rest ih =>
    intro t
    have hu : u.key ≠ "due_date" := h u (List.mem_cons_self u rest)
    have hrest : ∀ v ∈ rest, v.key ≠ "due_date" :=
      fun v hv => h v (List.mem_cons_of_mem u hv)
    have hstep : applyTaskUpdates t (u :: rest)
        = applyTaskUpdates
            (if taskUpdatableFields.contains u.key then t.setField u else t) rest := rfl
    rw [hstep, ih hrest]
    cases u <;> first
      | rfl
      | simp [TaskFieldVal.key] at hu

/-- A payload without a `status` key leaves the status alone. -/
theorem applyTaskUpdates_no_status (us : List TaskFieldVal)
    (h : ∀ u ∈ us, u.key ≠ "status") :
    ∀ t : Task, (applyTaskUpdates t us).status = t.status := by
  induction us with
  | nil => intro t; rfl
  | cons u rest ih =>
    intro t
    have hu : u.key ≠ "status" := h u (List.mem_cons_self u rest)
    have hrest : ∀ v ∈ rest, v.key ≠ "status" :=
      fun v hv => h v (List.mem_cons_of_mem u hv)
    have hstep : applyTaskUpdates t (u :: rest)
        = applyTaskUpdates
            (if taskUpdatableFields.contains u.key then t.setField u else t) rest := rfl
    rw [hstep, ih hrest]
    cases u <;> first
      | rfl
      | simp [TaskFieldVal.key] at hu

/-- With the dict's keys unique, if the payload holds `status := v` then the
copy loop sets exactly that status. -/
theorem applyTaskUpdates_status (us : List TaskFieldVal) (v : String)
    (huniq : us.Pairwise (fun a b => a.key ≠ b.key))
    (hfind : updatesGetStatus us = some v) :
    ∀ t : Task, (applyTaskUpdates t us).status = v := by
  induction us with
  | nil => intro t; simp [updatesGetStatus, List.find?] at hfind
  | cons u rest ih =>
    intro t
    have hstep : applyTaskUpdates t (u :: rest)
        = applyTaskUpdates
            (if taskUpdatableFields.contains u.key then t.setField u else t) rest := rfl
    rw [hstep]
    by_cases hk : u.key = "status"
    · -- the head is the status entry; the tail has no status key
      have hu : ∃ v', u = TaskFieldVal.status v' := by
        cases u <;> first
          | exact ⟨_, rfl⟩
          | simp [TaskFieldVal.key] at hk
      obtain ⟨v', rfl⟩ := hu
      have hv : (some v' : Option String) = some v :=
        Eq.trans (rfl : some v' = updatesGetStatus (TaskFieldVal.status v' :: rest)) hfind
      obtain rfl : v' = v := Option.some.inj hv
      have hnone : ∀ w ∈ rest, w.key ≠ "status" := fun w hw heq =>
        (List.pairwise_cons.mp huniq).1 w hw heq.symm
      rw [applyTaskUpdates_no_status rest hnone]
      rfl
    · -- the status entry is in the tail
      have hfind' : updatesGetStatus rest = some v := by
        have hcond : (fun u => decide (TaskFieldVal.key u = "status"))
            (u : TaskFieldVal) = false := by simp [hk]
        unfold updatesGetStatus at hfind ⊢
        rw [List.find?] at hfind
        simp only [hcond] at hfind
        exact hfind
      exact ih (List.Pairwise.of_cons huniq) hfind' _

/-- The `update_event` copy loop never writes the fields outside its
`_UPDATABLE_FIELDS`. -/
theorem updateEvent_frame (us : List EventFieldVal) :
    ∀ e : Event,
      (updateEvent e us).id = e.id ∧
      (updateEvent e us).householdId = e.householdId ∧
      (updateEvent e us).createdBy = e.createdBy ∧
      (updateEvent e us).createdAt = e.createdAt := by
  induction us with
  | nil => intro e; exact ⟨rfl, rfl, rfl, rfl⟩
  | cons u rest ih =>
    intro e
    have hstep : updateEvent e (u :: rest)
        = updateEvent
            (if eventUpdatableFields.contains u.key then e.setField u else e) rest := rfl
    rw [hstep]
    have h := ih (if eventUpdatableFields.contains u.key then e.setField u else e)
    cases u <;>
      simp only [EventFieldVal.key, eventUpdatableFields, List.contains, Event.setField] at h ⊢ <;>
      exact h

/-! ### Due-date advancement is strict -/

theorem advanceDueDate_lt (due : Date) (rule : String) (interval : Nat)
    (hrv : rule = "daily" ∨ rule = "weekly" ∨ rule = "monthly" ∨ rule = "yearly")
    (hi : 1 ≤ interval) (hm : 1 ≤ due.month) :
    Date.lt due (advanceDueDate due rule interval) := by
  rcases hrv with h | h | h | h <;> subst h <;> unfold advanceDueDate <;> simp only
  · exact Date.lt_addDays interval hi due
  · exact Date.lt_addDays (7 * interval) (by omega) due
  · exact Date.lt_addMonths interval hi due hm
  · exact Date.lt_addYears interval hi due

/-! ### The weekday walk of the monthly branch -/

/-- If some day within the fuel has the wanted weekday, the walk stops at the
first such day. -/
theorem walkToWeekday_spec (n : Nat) :
    ∀ (c : DateTime) (dow : Nat),
      (∃ k, k < n ∧ (Date.addDays k c.date).weekday = dow) →
      ∃ k, k < n ∧
        walkToWeekday n c dow = { c with date := Date.addDays k c.date } ∧
        (Date.addDays k c.date).weekday = dow := by
  induction n with
  | zero => intro c dow h; exact absurd h.choose_spec.1 (by omega)
  | succ n ih =>
    intro c dow h
    by_cases hc : c.date.weekday = dow
    · refine ⟨0, by omega, ?_, hc⟩
      show (if c.date.weekday = dow then c else _) = _
      rw [if_pos hc]
      rfl
    · obtain ⟨k, hk, hw⟩ := h
      obtain ⟨k', rfl⟩ : ∃ k', k = k' + 1 := by
        cases k with
        | zero => exact absurd hw (by simpa [Date.addDays] using hc)
        | succ k' => exact ⟨k', rfl⟩
      have hnext : ∀ j, Date.addDays (j + 1) c.date
          = Date.addDays j ({ c with date := c.date.next } : DateTime).date := fun j => rfl
      obtain ⟨k₀, hk₀, hwalk, hwd⟩ :=
        ih { c with date := c.date.next } dow ⟨k', by omega, by rw [← hnext]; exact hw⟩
      refine ⟨k₀ + 1, by omega, ?_, by rw [hnext]; exact hwd⟩
      show (if c.date.weekday = dow then c else _) = _
      rw [if_neg hc, hwalk, hnext]

/-- `addDays` from the first of a month stays inside the month for up to 27
further days (every month has at least 28 days). -/
theorem Date.addDays_first (y : Int) (m n : Nat) (hn : n ≤ 27) :
    Date.addDays n ⟨y, m, 1⟩ = ⟨y, m, 1 + n⟩ := by
  have hb : (⟨y, m, 1⟩ : Date).day + n
      ≤ daysInMonth (⟨y, m, 1⟩ : Date).year (⟨y, m, 1⟩ : Date).month := by
    show 1 + n ≤ daysInMonth y m
    have := daysInMonth_ge y m
    omega
  simpa using Date.addDays_in_month n ⟨y, m, 1⟩ hb

/-- From the first of a month, the walk lands within the first seven days on
the wanted weekday (when the wanted value is a genuine weekday). -/
theorem walkToWeekday_from_first (y : Int) (m : Nat) (h mi s dow : Nat)
    (hdow : dow < 7) :
    ∃ j, 1 ≤ j ∧ j ≤ 7 ∧
      walkToWeekday 7 ⟨⟨y, m, 1⟩, h, mi, s⟩ dow = ⟨⟨y, m, j⟩, h, mi, s⟩ ∧
      Date.weekday ⟨y, m, j⟩ = dow := by
  have hw0 : Date.weekday ⟨y, m, 1⟩ < 7 := Date.weekday_lt _
  set w0 := Date.weekday ⟨y, m, 1⟩ with hw0def
  have hex : ∃ k, k < 7 ∧ (Date.addDays k (⟨y, m, 1⟩ : Date)).weekday = dow := by
    refine ⟨(dow + 7 - w0) % 7, by omega, ?_⟩
    rw [Date.addDays_first y m _ (by omega)]
    rw [Date.weekday_day y m _ (by omega)]
    omega
  obtain ⟨k, hk, hwalk, hwd⟩ := walkToWeekday_spec 7 ⟨⟨y, m, 1⟩, h, mi, s⟩ dow hex
  rw [show (⟨⟨y, m, 1⟩, h, mi, s⟩ : DateTime).date = ⟨y, m, 1⟩ from rfl] at hwalk hwd
  rw [Date.addDays_first y m k (by omega)] at hwalk hwd
  exact ⟨1 + k, by omega, by omega, hwalk, hwd⟩

/-! ### Scheduler tick lemmas -/

/-- A tick whose date already equals the recorded last-daily date cannot fire
the daily digest, and leaves the record unchanged. -/
theorem schedulerTick_no_refire (st : SchedulerState) (i : TickInput) (d : Date)
    (hst : st.lastDailySent = some d) (hi : i.today = d) :
    (schedulerTick st i).1 = false ∧
    (schedulerTick st i).2.2.lastDailySent = some d := by
  have hfire : (schedulerTick st i).1
      = (i.hour == i.dailyHour && i.minute == 0 &&
          !(st.lastDailySent == some i.today) && !(i.smtpHost == "")) := rfl
  have hdf : (schedulerTick st i).1 = false := by
    rw [hfire, hst, hi]
    simp
  refine ⟨hdf, ?_⟩
  have hstate : (schedulerTick st i).2.2
      = (if (schedulerTick st i).2.1 = true
          then { (if (schedulerTick st i).1 = true
                   then { st with lastDailySent := some i.today } else st) with
                 lastWeeklySent := some i.today }
          else (if (schedulerTick st i).1 = true
                  then { st with lastDailySent := some i.today } else st)) := rfl
  rw [hstate, hdf]
  simp only [Bool.false_eq_true, if_false]
  split <;> simpa using hst

/-! ## Claim theorems -/

/-- C8: in `run_daily_digest` and `run_weekly_digest`, one user's failure
(raised exception) while gathering, rendering or sending is caught and does
not abort the batch: every opted-in user is processed in order, and the
returned count equals the number of opted-in users whose step completed
without an exception. -/
theorem digest_batch_isolation (users : List User)
    (pd pw : User → Except String Unit) :
    (runDailyDigest users pd).1
        = ((users.filter (fun u => u.emailDigestDaily)).filter
            (fun u => isOk (pd u))).length
    ∧ (runDailyDigest users pd).2 = users.filter (fun u => u.emailDigestDaily)
    ∧ (runWeeklyDigest users pw).1
        = ((users.filter (fun u => u.emailDigestWeekly)).filter
            (fun u => isOk (pw u))).length
    ∧ (runWeeklyDigest users pw).2 = users.filter (fun u => u.emailDigestWeekly) := by
  have hd := digestSendLoop_spec pd (users.filter (fun u => u.emailDigestDaily)) 0
  have hw := digestSendLoop_spec pw (users.filter (fun u => u.emailDigestWeekly)) 0
  exact ⟨by simpa using hd.1, hd.2, by simpa using hw.1, hw.2⟩

/-- The completion logic of `update_task` runs after the copy loop and only
ever rewrites `due_date`, `status`, `completed_at` and `last_completed_at`. -/
theorem updateTask_outer_frame (t : Task) (us : List TaskFieldVal) (now : DateTime) :
    (updateTask t us now).id = (applyTaskUpdates t us).id ∧
    (updateTask t us now).householdId = (applyTaskUpdates t us).householdId ∧
    (updateTask t us now).createdBy = (applyTaskUpdates t us).createdBy ∧
    (updateTask t us now).createdAt = (applyTaskUpdates t us).createdAt := by
  unfold updateTask
  dsimp only
  refine ⟨?_, ?_, ?_, ?_⟩ <;> (repeat' split) <;> rfl

/-- C9: `update_task` and `update_event` copy only allow-listed payload keys
onto the record; a payload naming any other field — in particular `id`,
`household_id`, `created_by`, `created_at` — is ignored, and those four
fields are unchanged on the returned record. -/
theorem update_allow_list_frame (t : Task) (us : List TaskFieldVal)
    (now : DateTime) (e : Event) (ues : List EventFieldVal) :
    ((updateTask t us now).id = t.id
      ∧ (updateTask t us now).householdId = t.householdId
      ∧ (updateTask t us now).createdBy = t.createdBy
      ∧ (updateTask t us now).createdAt = t.createdAt)
    ∧ ((applyTaskUpdates t us).id = t.id
      ∧ (applyTaskUpdates t us).householdId = t.householdId
      ∧ (applyTaskUpdates t us).createdBy = t.createdBy
      ∧ (applyTaskUpdates t us).createdAt = t.createdAt
      ∧ (applyTaskUpdates t us).completedAt = t.completedAt
      ∧ (applyTaskUpdates t us).lastCompletedAt = t.lastCompletedAt)
    ∧ ((updateEvent e ues).id = e.id
      ∧ (updateEvent e ues).householdId = e.householdId
      ∧ (updateEvent e ues).createdBy = e.createdBy
      ∧ (updateEvent e ues).createdAt = e.createdAt) := by
  have hin := applyTaskUpdates_frame us t
  have hout := updateTask_outer_frame t us now
  refine ⟨⟨?_, ?_, ?_, ?_⟩,
    ⟨hin.1, hin.2.1, hin.2.2.1, hin.2.2.2.1, hin.2.2.2.2.1, hin.2.2.2.2.2⟩,
    updateEvent_frame ues e⟩
  · exact hout.1.trans hin.1
  · exact hout.2.1.trans hin.2.1
  · exact hout.2.2.1.trans hin.2.2.1
  · exact hout.2.2.2.trans hin.2.2.2.1

/-- C10: the daily digest's completed section is filtered by timestamps only,
never by status: it holds exactly the household's tasks with `completed_at` or
`last_completed_at` inside yesterday's bounds; a recurring task completed
yesterday and reset to `pending` appears in it, and can simultaneously appear
in `tasks_due` when its new due date is today. -/
theorem completed_section_status_blind :
    (∀ (tasks : List Task) (hhId : String) (yS yE : DateTime) (t : Task),
        t ∈ completedYesterday tasks hhId yS yE ↔
          t ∈ tasks ∧ t.householdId = hhId ∧
            ((∃ c, t.completedAt = some c ∧ DateTime.le yS c ∧ DateTime.le c yE) ∨
             (∃ c, t.lastCompletedAt = some c ∧ DateTime.le yS c ∧ DateTime.le c yE)))
    ∧ (∀ (hhId : String) (yS yE : DateTime) (t : Task) (s : String),
        completedYesterdayPred hhId yS yE { t with status := s }
          = completedYesterdayPred hhId yS yE t)
    ∧ resetDoneTask.status = "pending"
    ∧ resetDoneTask ∈ completedYesterday [resetDoneTask] "hh1"
        ⟨⟨2026, 5, 1⟩, 0, 0, 0⟩ ⟨⟨2026, 5, 1⟩, 23, 59, 59⟩
    ∧ resetDoneTask ∈ tasksDueToday [resetDoneTask] "hh1" ⟨2026, 5, 2⟩ := by
  refine ⟨?_, fun _ _ _ _ _ => rfl, rfl, by decide, by decide⟩
  intro tasks hhId yS yE t
  unfold completedYesterday
  rw [List.mem_filter]
  unfold completedYesterdayPred
  cases h1 : t.completedAt <;> cases h2 : t.lastCompletedAt <;>
    simp [h1, h2, Bool.and_eq_true, beq_iff_eq, and_assoc]

/-- C5: within one process lifetime, once the daily digest has fired on day
`d` (recording `d` as last-daily-sent), no later tick still on day `d` fires
the daily digest again; and a daily fire happens only when the clock is the
configured hour at minute 0, the recorded date differs from today, and the
mail transport is configured — firing then records today. -/
theorem daily_digest_at_most_once (st : SchedulerState) (d : Date)
    (ticks : List TickInput)
    (hst : st.lastDailySent = some d)
    (hd : ∀ i ∈ ticks, i.today = d) :
    (∀ f ∈ (schedulerRun st ticks).1, f.1 = false)
    ∧ (∀ (st' : SchedulerState) (i : TickInput), (schedulerTick st' i).1 = true →
        i.hour = i.dailyHour ∧ i.minute = 0 ∧
          st'.lastDailySent ≠ some i.today ∧ i.smtpHost ≠ "")
    ∧ (∀ (st' : SchedulerState) (i : TickInput), (schedulerTick st' i).1 = true →
        (schedulerTick st' i).2.2.lastDailySent = some i.today) := by
  refine ⟨?_, ?_, ?_⟩
  · induction ticks generalizing st with
    | nil => intro f hf; simp [schedulerRun] at hf
    | cons i rest ih =>
      intro f hf
      have hno := schedulerTick_no_refire st i d hst (hd i (List.mem_cons_self i rest))
      have hstep : (schedulerRun st (i :: rest)).1
          = ((schedulerTick st i).1, (schedulerTick st i).2.1)
              :: (schedulerRun (schedulerTick st i).2.2 rest).1 := rfl
      rw [hstep] at hf
      rcases List.mem_cons.mp hf with hf | hf
      · rw [hf]
        exact hno.1
      · exact ih (schedulerTick st i).2.2 hno.2
          (fun j hj => hd j (List.mem_cons_of_mem i hj)) f hf
  · intro st' i hfire
    have h : (i.hour == i.dailyHour && i.minute == 0 &&
        !(st'.lastDailySent == some i.today) && !(i.smtpHost == "")) = true := hfire
    simp only [Bool.and_eq_true, beq_iff_eq, Bool.not_eq_true', beq_eq_false_iff_ne]
      at h
    exact ⟨h.1.1.1, h.1.1.2, h.1.2, h.2⟩
  · intro st' i hfire
    have hstate : (schedulerTick st' i).2.2
        = (if (schedulerTick st' i).2.1 = true
            then { (if (schedulerTick st' i).1 = true
                     then { st' with lastDailySent := some i.today } else st') with
                   lastWeeklySent := some i.today }
            else (if (schedulerTick st' i).1 = true
                    then { st' with lastDailySent := some i.today } else st')) := rfl
    rw [hstate, hfire]
    simp only [if_true]
    split <;> rfl

/-- C6: `expand_event_occurrences` terminates on every input: the per-event
loop executes at most 1000 iterations and emits at most one occurrence per
iteration; reaching the cap stops expansion silently (a truncated list, not
an exception), even for a rule that never advances the cursor — concretely, a
rule matching none of the four kinds leaves the cursor fixed and the March
2026 window yields exactly 1000 truncated occurrences. -/
theorem expansion_iteration_cap :
    (∀ (ev : Event) (rule : String) (interval : Nat) (duration : Int)
        (effEnd rs re cursor : DateTime),
        (expandLoop ev rule interval duration effEnd rs re 1000 cursor).2 ≤ 1000 ∧
        (expandLoop ev rule interval duration effEnd rs re 1000 cursor).1.length
          ≤ (expandLoop ev rule interval duration effEnd rs re 1000 cursor).2)
    ∧ (∀ c : DateTime, advanceDate c "custom" 1 stuckEvent.startTime = c)
    ∧ (expandEventOccurrences [stuckEvent] ⟨⟨2026, 3, 1⟩, 0, 0, 0⟩
        ⟨⟨2026, 3, 31⟩, 23, 59, 59⟩).length = 1000 := by
  refine ⟨?_, fun c => rfl, ?_⟩
  · intro ev rule interval duration effEnd rs re cursor
    exact expandLoop_count_le ev rule interval duration effEnd rs re 1000 cursor
  · unfold expandEventOccurrences
    rw [sortByStart_length]
    have hfm : ([stuckEvent] : List Event).flatMap
          (expandEvent ⟨⟨2026, 3, 1⟩, 0, 0, 0⟩ ⟨⟨2026, 3, 31⟩, 23, 59, 59⟩)
        = expandEvent ⟨⟨2026, 3, 1⟩, 0, 0, 0⟩ ⟨⟨2026, 3, 31⟩, 23, 59, 59⟩ stuckEvent := by
      simp
    rw [hfm]
    have he : expandEvent ⟨⟨2026, 3, 1⟩, 0, 0, 0⟩ ⟨⟨2026, 3, 31⟩, 23, 59, 59⟩ stuckEvent
        = (expandLoop stuckEvent "custom" 1
            (stuckEvent.endTime.toSecs - stuckEvent.startTime.toSecs)
            (DateTime.minD ⟨⟨2026, 3, 31⟩, 23, 59, 59⟩ ⟨⟨2026, 3, 31⟩, 23, 59, 59⟩)
            ⟨⟨2026, 3, 1⟩, 0, 0, 0⟩ ⟨⟨2026, 3, 31⟩, 23, 59, 59⟩
            1000 stuckEvent.startTime).1 := rfl
    rw [he]
    exact (expandLoop_stuck stuckEvent "custom" 1 _ _ _ _ stuckEvent.startTime rfl
      (by decide) ⟨by decide, by decide⟩ 1000).1

/-- Witness for C5: a state that already fired on 2026-05-01 and one more tick
that day at the configured hour; the theorem yields no refire, and at a fresh
state the same tick's fire conditions hold as the claim lists them. -/
theorem daily_digest_at_most_once_witness :
    ((false, false) : Bool × Bool).1 = false
    ∧ (6 : Nat) = 6 ∧ (0 : Nat) = 0
    ∧ (none : Option Date) ≠ some ⟨2026, 5, 1⟩ ∧ ("mail" : String) ≠ "" := by
  have h := daily_digest_at_most_once ⟨some ⟨2026, 5, 1⟩, none⟩ ⟨2026, 5, 1⟩
    [⟨⟨2026, 5, 1⟩, 6, 0, "mail", 6, 18⟩] rfl (by decide)
  refine ⟨h.1 (false, false) (by decide), ?_⟩
  exact h.2.1 ⟨none, none⟩ ⟨⟨2026, 5, 1⟩, 6, 0, "mail", 6, 18⟩ (by decide)

/-- C7: every occurrence returned by `expand_event_occurrences` overlaps the
query window (`occurrence_end ≥ window_start` and
`occurrence_start ≤ window_end`), for recurring and non-recurring definitions
alike; and a non-recurring definition contributes at most one occurrence. -/
theorem occurrence_window_containment (events : List Event) (rs re : DateTime) :
    (∀ o ∈ expandEventOccurrences events rs re,
        DateTime.le rs o.2.2 ∧ DateTime.le o.2.1 re)
    ∧ (∀ ev : Event, (ev.recurrenceRule = none ∨ ev.recurrenceRule = some "") →
        (expandEventOccurrences [ev] rs re).length ≤ 1) := by
  constructor
  · intro o ho
    have ho' : o ∈ events.flatMap (expandEvent rs re) :=
      (sortByStart_mem o _).mp ho
    rw [List.mem_flatMap] at ho'
    obtain ⟨ev, hev, hoev⟩ := ho'
    unfold expandEvent at hoev
    cases hr : ev.recurrenceRule with
    | none =>
      simp only [hr] at hoev
      split at hoev
      · rename_i hguard
        simp only [List.mem_singleton] at hoev
        subst hoev
        exact hguard
      · simp at hoev
    | some r =>
      by_cases hr0 : r = ""
      · subst hr0
        simp only [hr] at hoev
        have hoev' : o ∈ (if DateTime.le rs ev.endTime ∧ DateTime.le ev.startTime re
            then [(ev, ev.startTime, ev.endTime)] else []) := hoev
        split at hoev'
        · rename_i hguard
          simp only [List.mem_singleton] at hoev'
          subst hoev'
          exact hguard
        · simp at hoev'
      · simp only [hr, if_neg hr0] at hoev
        exact expandLoop_mem_guard ev r _ _ _ rs re 1000 ev.startTime o hoev
  · intro ev hr
    unfold expandEventOccurrences
    rw [sortByStart_length]
    have hfm : ([ev] : List Event).flatMap (expandEvent rs re)
        = expandEvent rs re ev := by simp
    rw [hfm]
    have hsingle : (ev.recurrenceRule = none ∨ ev.recurrenceRule = some "") →
        expandEvent rs re ev
          = (if DateTime.le rs ev.endTime ∧ DateTime.le ev.startTime re
              then [(ev, ev.startTime, ev.endTime)] else []) := by
      intro h
      unfold expandEvent
      rcases h with h | h <;> simp only [h]
      rfl
    rw [hsingle hr]
    split <;> simp

/-- Witness for C7: the monthly scenario's single April occurrence overlaps
the April 2026 window. -/
theorem occurrence_window_containment_witness :
    DateTime.le ⟨⟨2026, 4, 1⟩, 0, 0, 0⟩ (⟨⟨2026, 4, 7⟩, 10, 0, 0⟩ : DateTime)
    ∧ DateTime.le (⟨⟨2026, 4, 7⟩, 9, 0, 0⟩ : DateTime) ⟨⟨2026, 4, 30⟩, 23, 59, 59⟩ :=
  (occurrence_window_containment [scenarioEvent] ⟨⟨2026, 4, 1⟩, 0, 0, 0⟩
      ⟨⟨2026, 4, 30⟩, 23, 59, 59⟩).1
    (scenarioEvent, ⟨⟨2026, 4, 7⟩, 9, 0, 0⟩, ⟨⟨2026, 4, 7⟩, 10, 0, 0⟩) (by decide)

/-- C3: completing (status → done) a task that, after the copy loop, has a
recurrence rule, a due date, and an unexhausted recurrence window resets it:
`status = pending`, `due_date` strictly advanced by calendar arithmetic,
`last_completed_at = now`, `completed_at` absent. -/
theorem recurring_task_reset (t : Task) (us : List TaskFieldVal) (now : DateTime)
    (rule : String) (due : Date)
    (hs : updatesGetStatus us = some "done")
    (hr : (applyTaskUpdates t us).recurrenceRule = some rule)
    (hrv : rule = "daily" ∨ rule = "weekly" ∨ rule = "monthly" ∨ rule = "yearly")
    (hd : (applyTaskUpdates t us).dueDate = some due)
    (hm : 1 ≤ due.month)
    (hi : 1 ≤ (applyTaskUpdates t us).recurrenceInterval)
    (hend : ∀ e, (applyTaskUpdates t us).recurrenceEnd = some e →
        ¬ Date.lt e (advanceDueDate due rule (applyTaskUpdates t us).recurrenceInterval)) :
    (updateTask t us now).status = "pending"
    ∧ (updateTask t us now).dueDate
        = some (advanceDueDate due rule (applyTaskUpdates t us).recurrenceInterval)
    ∧ Date.lt due (advanceDueDate due rule (applyTaskUpdates t us).recurrenceInterval)
    ∧ (updateTask t us now).completedAt = none
    ∧ (updateTask t us now).lastCompletedAt = some now := by
  have hlt := advanceDueDate_lt due rule (applyTaskUpdates t us).recurrenceInterval hrv hi hm
  have hne : rule ≠ "" := by rcases hrv with h | h | h | h <;> subst h <;> simp
  unfold updateTask
  simp only [hs, hr, hd, reduceIte]
  rw [if_pos hne]
  cases hre : (applyTaskUpdates t us).recurrenceEnd with
  | none =>
    simp only [hre]
    exact ⟨by trivial, by trivial, hlt, by trivial, by trivial⟩
  | some e =>
    simp only [hre]
    rw [if_neg (hend e hre)]
    exact ⟨by trivial, by trivial, hlt, by trivial, by trivial⟩

/-- Witness for C3: the spec's rollover scenario — due 2026-01-31, monthly
interval 1 — completes into a pending task due 2026-02-28. -/
theorem recurring_task_reset_witness :
    (updateTask resetTask [TaskFieldVal.status "done"] ⟨⟨2026, 1, 31⟩, 12, 0, 0⟩).status
        = "pending"
    ∧ (updateTask resetTask [TaskFieldVal.status "done"] ⟨⟨2026, 1, 31⟩, 12, 0, 0⟩).dueDate
        = some ⟨2026, 2, 28⟩
    ∧ (updateTask resetTask [TaskFieldVal.status "done"] ⟨⟨2026, 1, 31⟩, 12, 0, 0⟩).completedAt
        = none := by
  have h := recurring_task_reset resetTask [TaskFieldVal.status "done"]
    ⟨⟨2026, 1, 31⟩, 12, 0, 0⟩ "monthly" ⟨2026, 1, 31⟩ rfl rfl
    (Or.inr (Or.inr (Or.inl rfl))) rfl (by decide) (by decide)
    (by
      intro e he
      have h0 : (none : Option Date) = some e := he
      exact Option.noConfusion h0)
  exact ⟨h.1, by rw [h.2.1]; rfl, h.2.2.2.1⟩

/-- C4: completing a task whose advanced due date exceeds `recurrence.end`
terminates it: `status = done`, `completed_at = now`, `due_date` unchanged. -/
theorem recurring_task_termination (t : Task) (us : List TaskFieldVal)
    (now : DateTime) (rule : String) (due e : Date)
    (huniq : us.Pairwise (fun a b => a.key ≠ b.key))
    (hnod : ∀ u ∈ us, u.key ≠ "due_date")
    (hs : updatesGetStatus us = some "done")
    (hr : (applyTaskUpdates t us).recurrenceRule = some rule)
    (hne : rule ≠ "")
    (hd : t.dueDate = some due)
    (he : (applyTaskUpdates t us).recurrenceEnd = some e)
    (hex : Date.lt e (advanceDueDate due rule (applyTaskUpdates t us).recurrenceInterval)) :
    (updateTask t us now).status = "done"
    ∧ (updateTask t us now).completedAt = some now
    ∧ (updateTask t us now).dueDate = some due := by
  have hd' : (applyTaskUpdates t us).dueDate = some due := by
    rw [applyTaskUpdates_no_due us hnod t, hd]
  have hst : (applyTaskUpdates t us).status = "done" :=
    applyTaskUpdates_status us "done" huniq hs t
  unfold updateTask
  simp only [hs, hr, hd', reduceIte]
  rw [if_pos hne]
  simp only [he]
  rw [if_pos hex]
  refine ⟨hst, ?_, ?_⟩ <;> trivial

/-- Witness for C4: the spec's termination scenario — recurrence end
2026-03-01, weekly interval 1, due 2026-02-25; the computed next due
2026-03-04 exceeds the end, so completion terminates with the due date kept. -/
theorem recurring_task_termination_witness :
    (updateTask finishTask [TaskFieldVal.status "done"] ⟨⟨2026, 2, 25⟩, 12, 0, 0⟩).status
        = "done"
    ∧ (updateTask finishTask [TaskFieldVal.status "done"] ⟨⟨2026, 2, 25⟩, 12, 0, 0⟩).completedAt
        = some ⟨⟨2026, 2, 25⟩, 12, 0, 0⟩
    ∧ (updateTask finishTask [TaskFieldVal.status "done"] ⟨⟨2026, 2, 25⟩, 12, 0, 0⟩).dueDate
        = some ⟨2026, 2, 25⟩ :=
  recurring_task_termination finishTask [TaskFieldVal.status "done"]
    ⟨⟨2026, 2, 25⟩, 12, 0, 0⟩ "weekly" ⟨2026, 2, 25⟩ ⟨2026, 3, 1⟩
    (by simp) (by decide) rfl rfl (by decide) rfl rfl (by decide)

/-- The yearly branch of `_advance_date`: the year advances by exactly the
interval (never skipping a year), the month and time of day are kept, and the
day is kept except that a Feb 29 cursor entering a non-leap year falls back to
Feb 28 (the caught `ValueError`); the result is always a valid day again. -/
theorem advanceDate_yearly (c : DateTime) (k : Nat) (a : DateTime)
    (hv : c.date.day ≤ daysInMonth c.date.year c.date.month) :
    (advanceDate c "yearly" k a).date.year = c.date.year + (k : Int)
    ∧ (advanceDate c "yearly" k a).date.month = c.date.month
    ∧ (advanceDate c "yearly" k a).hour = c.hour
    ∧ (advanceDate c "yearly" k a).minute = c.minute
    ∧ (advanceDate c "yearly" k a).second = c.second
    ∧ ((advanceDate c "yearly" k a).date.day = c.date.day
        ∨ ((advanceDate c "yearly" k a).date.day = 28 ∧ c.date.month = 2
            ∧ c.date.day = 29 ∧ isLeap (c.date.year + (k : Int)) = false))
    ∧ (advanceDate c "yearly" k a).date.day
        ≤ daysInMonth (advanceDate c "yearly" k a).date.year
            (advanceDate c "yearly" k a).date.month := by
  have hform : advanceDate c "yearly" k a
      = (if c.date.day ≤ daysInMonth (c.date.year + (k : Int)) c.date.month
          then { c with date := ⟨c.date.year + (k : Int), c.date.month, c.date.day⟩ }
          else { c with date := ⟨c.date.year + (k : Int), c.date.month, 28⟩ }) := rfl
  rw [hform]
  split
  · rename_i hle
    exact ⟨rfl, rfl, rfl, rfl, rfl, Or.inl rfl, hle⟩
  · rename_i hgt
    have h2 : c.date.month = 2 := by
      by_contra hm2
      have heq : daysInMonth (c.date.year + (k : Int)) c.date.month
          = daysInMonth c.date.year c.date.month := by
        unfold daysInMonth
        rw [if_neg hm2, if_neg hm2]
      omega
    have hub : daysInMonth c.date.year c.date.month ≤ 29 := by
      rw [h2]
      unfold daysInMonth
      split
      · split <;> omega
      · omega
    have hlb : 28 ≤ daysInMonth (c.date.year + (k : Int)) c.date.month :=
      daysInMonth_ge _ _
    have hd29 : c.date.day = 29 := by omega
    have hdim28 : daysInMonth (c.date.year + (k : Int)) c.date.month = 28 := by omega
    have hleapf : isLeap (c.date.year + (k : Int)) = false := by
      cases hl : isLeap (c.date.year + (k : Int)) with
      | false => rfl
      | true =>
        rw [h2] at hdim28
        unfold daysInMonth at hdim28
        rw [if_pos rfl, hl] at hdim28
        simp at hdim28
    refine ⟨rfl, rfl, rfl, rfl, rfl, Or.inr ⟨rfl, h2, hd29, hleapf⟩, ?_⟩
    show (28 : Nat) ≤ daysInMonth (c.date.year + (k : Int)) c.date.month
    exact hlb

/-- C1 (amended): for a yearly event with a valid anchor, every generated
occurrence keeps the anchor's month; its day equals the anchor's day, except
that a Feb-29 anchor's cursor, once through a non-leap year, is 28 — also in
later leap years, because the advancement works from the cursor, not the
anchor.  Each advancement step adds exactly `interval` to the year (never
raising, never skipping a year), keeps the month and the time of day, and
keeps the day except for the Feb 29 → Feb 28 fallback. -/
theorem yearly_occurrence_month_day (ev : Event) (rs re : DateTime)
    (hr : ev.recurrenceRule = some "yearly")
    (hv : ev.startTime.date.day
        ≤ daysInMonth ev.startTime.date.year ev.startTime.date.month) :
    (∀ o ∈ expandEventOccurrences [ev] rs re,
        o.2.1.date.month = ev.startTime.date.month
        ∧ (o.2.1.date.day = ev.startTime.date.day
            ∨ (ev.startTime.date.month = 2 ∧ ev.startTime.date.day = 29
                ∧ o.2.1.date.day = 28)))
    ∧ (∀ (c : DateTime) (k : Nat) (a : DateTime),
        c.date.day ≤ daysInMonth c.date.year c.date.month →
          (advanceDate c "yearly" k a).date.year = c.date.year + (k : Int)
          ∧ (advanceDate c "yearly" k a).date.month = c.date.month
          ∧ (advanceDate c "yearly" k a).hour = c.hour
          ∧ ((advanceDate c "yearly" k a).date.day = c.date.day
              ∨ ((advanceDate c "yearly" k a).date.day = 28 ∧ c.date.month = 2
                  ∧ c.date.day = 29 ∧ isLeap (c.date.year + (k : Int)) = false))) := by
  constructor
  · intro o ho
    have ho' : o ∈ ([ev] : List Event).flatMap (expandEvent rs re) :=
      (sortByStart_mem o _).mp ho
    rw [List.mem_flatMap] at ho'
    obtain ⟨ev', hev', hoev⟩ := ho'
    have hee : ev' = ev := by simpa using hev'
    rw [hee] at hoev
    unfold expandEvent at hoev
    simp only [hr] at hoev
    have hoev' : o ∈ (expandLoop ev "yearly"
        (if ev.recurrenceInterval = 0 then 1 else ev.recurrenceInterval)
        (ev.endTime.toSecs - ev.startTime.toSecs)
        (DateTime.minD
          (match ev.recurrenceEnd with
            | some d => ⟨d, 23, 59, 59⟩
            | none => re) re)
        rs re 1000 ev.startTime).1 := hoev
    have hinv := expandLoop_inv
      (fun c => c.date.month = ev.startTime.date.month
        ∧ c.date.day ≤ daysInMonth c.date.year c.date.month
        ∧ (c.date.day = ev.startTime.date.day
            ∨ (ev.startTime.date.month = 2 ∧ ev.startTime.date.day = 29
                ∧ c.date.day = 28)))
      ev "yearly"
      (if ev.recurrenceInterval = 0 then 1 else ev.recurrenceInterval)
      (ev.endTime.toSecs - ev.startTime.toSecs)
      (DateTime.minD
        (match ev.recurrenceEnd with
          | some d => ⟨d, 23, 59, 59⟩
          | none => re) re)
      rs re ?step 1000 ev.startTime ⟨rfl, hv, Or.inl rfl⟩ o hoev'
    case step =>
      intro c hc
      obtain ⟨hcm, hcv, hcd⟩ := hc
      have hstep := advanceDate_yearly c
        (if ev.recurrenceInterval = 0 then 1 else ev.recurrenceInterval)
        ev.startTime hcv
      refine ⟨hstep.2.1.trans hcm, hstep.2.2.2.2.2.2, ?_⟩
      rcases hstep.2.2.2.2.2.1 with hkeep | ⟨h28, hm2, h29, _⟩
      · rw [hkeep]
        exact hcd
      · right
        refine ⟨?_, ?_, h28⟩
        · rw [← hcm]
          exact hm2
        · rcases hcd with hcd | ⟨_, hcd, _⟩
          · rw [← hcd]
            exact h29
          · exact hcd
    exact ⟨hinv.1, hinv.2.2⟩
  · intro c k a hcv
    have h := advanceDate_yearly c k a hcv
    exact ⟨h.1, h.2.1, h.2.2.1, h.2.2.2.2.2.1⟩

/-- Counterexample to C1 as stated: the yearly event anchored 2024-02-29,
expanded over February 2028 (a leap year), yields its occurrence on
2028-02-28 — not on the anchor's month *and day* (Feb 29), even though 2028
is a leap year, because the cursor stuck at Feb 28 when it crossed 2025. -/
theorem yearly_feb29_leap_return_refuted :
    (expandEventOccurrences [leapEvent] ⟨⟨2028, 2, 1⟩, 0, 0, 0⟩
        ⟨⟨2028, 2, 29⟩, 23, 59, 59⟩).map (fun o => o.2.1.date)
      = [⟨2028, 2, 28⟩]
    ∧ leapEvent.startTime.date = ⟨2024, 2, 29⟩
    ∧ isLeap 2028 = true := by
  refine ⟨by decide, rfl, by decide⟩

/-- Witness for C1: the 2028 occurrence of the Feb-29-anchored event keeps
the anchor's month, with the day in the Feb-28 fallback arm. -/
theorem yearly_occurrence_month_day_witness :
    (2 : Nat) = 2
    ∧ ((28 : Nat) = 29 ∨ ((2 : Nat) = 2 ∧ (29 : Nat) = 29 ∧ (28 : Nat) = 28)) :=
  (yearly_occurrence_month_day leapEvent ⟨⟨2028, 2, 1⟩, 0, 0, 0⟩
      ⟨⟨2028, 2, 29⟩, 23, 59, 59⟩ rfl (by decide)).1
    (leapEvent, ⟨⟨2028, 2, 28⟩, 9, 0, 0⟩, ⟨⟨2028, 2, 28⟩, 10, 0, 0⟩) (by decide)

/-- C2 (amended): for an anchor on day 1–28 of its month (anchor weeks 1–4,
where the nth weekday always exists and the overflow pass never runs), every
monthly advancement lands on the anchor's weekday in the anchor's
week-of-month again — hence in particular a 2nd-Tuesday anchor advances to
2nd Tuesdays for arbitrarily many (so at least 24) consecutive intervals.
For week-5 anchors the corrective overflow pass can leave the pattern (see
the counterexample).  The spec's concrete scenario holds: the event starting
2026-03-03T09:00 (1st Tuesday), monthly interval 1, expanded over April 2026,
yields exactly one occurrence, 2026-04-07 09:00–10:00. -/
theorem monthly_pattern_preserved (current anchor : DateTime) (interval : Nat)
    (h1 : 1 ≤ anchor.date.day) (h28 : anchor.date.day ≤ 28) :
    ((advanceDate current "monthly" interval anchor).date.weekday
        = anchor.date.weekday
      ∧ ((advanceDate current "monthly" interval anchor).date.day + 6) / 7
          = (anchor.date.day + 6) / 7
      ∧ 1 ≤ (advanceDate current "monthly" interval anchor).date.day
      ∧ (advanceDate current "monthly" interval anchor).hour = anchor.hour)
    ∧ expandEventOccurrences [scenarioEvent] ⟨⟨2026, 4, 1⟩, 0, 0, 0⟩
        ⟨⟨2026, 4, 30⟩, 23, 59, 59⟩
      = [(scenarioEvent, ⟨⟨2026, 4, 7⟩, 9, 0, 0⟩, ⟨⟨2026, 4, 7⟩, 10, 0, 0⟩)] := by
  refine ⟨?_, by decide⟩
  set w := (anchor.date.day + 6) / 7 with hw
  set dow := anchor.date.weekday with hdow0
  set m0 := current.date.month - 1 + interval with hm0
  set Y := current.date.year + (m0 / 12 : Nat) with hY
  set M := m0 % 12 + 1 with hM
  obtain ⟨j, hj1, hj7, hwalk, hwd⟩ :=
    walkToWeekday_from_first Y M anchor.hour anchor.minute anchor.second dow
      (by rw [hdow0]; exact Date.weekday_lt _)
  have hwb : 1 ≤ w ∧ w ≤ 4 := by rw [hw]; omega
  have hbound : (⟨Y, M, j⟩ : Date).day + 7 * (w - 1)
      ≤ daysInMonth (⟨Y, M, j⟩ : Date).year (⟨Y, M, j⟩ : Date).month := by
    show j + 7 * (w - 1) ≤ daysInMonth Y M
    have := daysInMonth_ge Y M
    omega
  have hres : advanceDate current "monthly" interval anchor
      = ⟨⟨Y, M, j + 7 * (w - 1)⟩, anchor.hour, anchor.minute, anchor.second⟩ := by
    have hform : advanceDate current "monthly" interval anchor
        = (let c1 := walkToWeekday 7
              ⟨⟨Y, M, 1⟩, anchor.hour, anchor.minute, anchor.second⟩ dow
           let c2 : DateTime := { c1 with date := Date.addDays (7 * (w - 1)) c1.date }
           if c2.date.month ≠ M then
             let c3 : DateTime := { c2 with
               date := ⟨Y + (((M + interval) - 1) / 12 : Nat), ((M + interval) - 1) % 12 + 1, 1⟩ }
             let c4 := walkToWeekday 7 c3 dow
             { c4 with date := Date.addDays (7 * (w - 1)) c4.date }
           else c2) := rfl
    rw [hform]
    dsimp only
    rw [hwalk]
    dsimp only
    rw [Date.addDays_in_month (7 * (w - 1)) ⟨Y, M, j⟩ hbound]
    dsimp only
    rw [if_neg (fun hh => hh rfl)]
  have e4 : dow < 7 := by rw [hdow0]; exact Date.weekday_lt _
  have e5 : Date.weekday ⟨Y, M, 1⟩ < 7 := Date.weekday_lt _
  have e1 := Date.weekday_day Y M (j + 7 * (w - 1)) (by omega)
  have e2 := Date.weekday_day Y M j (by omega)
  have e3 : Date.weekday ⟨Y, M, j⟩ = dow := hwd
  refine ⟨?_, ?_, ?_, ?_⟩
  · rw [hres]
    show Date.weekday ⟨Y, M, j + 7 * (w - 1)⟩ = dow
    omega
  · rw [hres]
    show ((j + 7 * (w - 1)) + 6) / 7 = w
    omega
  · rw [hres]
    show 1 ≤ j + 7 * (w - 1)
    omega
  · rw [hres]

set_option maxRecDepth 4000 in
/-- Counterexample to C2 as stated: a monthly rule anchored on the 5th Friday
of January 2026 (Jan 30) advances — through the overflow corrective pass — to
2026-04-03, the **1st** Friday of April: the anchor's week-of-month (5) is
not preserved (and February and March are skipped). -/
theorem monthly_fifth_weekday_refuted :
    advanceDate ⟨⟨2026, 1, 30⟩, 9, 0, 0⟩ "monthly" 1 ⟨⟨2026, 1, 30⟩, 9, 0, 0⟩
      = ⟨⟨2026, 4, 3⟩, 9, 0, 0⟩
    ∧ Date.weekday ⟨2026, 1, 30⟩ = 4
    ∧ ((30 : Nat) + 6) / 7 = 5
    ∧ Date.weekday ⟨2026, 4, 3⟩ = 4
    ∧ ((3 : Nat) + 6) / 7 = 1
    ∧ (5 : Nat) ≠ 1 := by
  exact ⟨by decide, by decide, by decide, by decide, by decide, by decide⟩

/-- Witness for C2: at the scenario's 1st-Tuesday anchor the advancement
keeps the weekday and week-of-month. -/
theorem monthly_pattern_preserved_witness :
    Date.weekday ⟨2026, 4, 7⟩ = Date.weekday ⟨2026, 3, 3⟩
    ∧ ((7 : Nat) + 6) / 7 = ((3 : Nat) + 6) / 7 := by
  have h := (monthly_pattern_preserved ⟨⟨2026, 3, 3⟩, 9, 0, 0⟩ ⟨⟨2026, 3, 3⟩, 9, 0, 0⟩ 1
    (by decide) (by decide)).1
  exact ⟨h.1, h.2.1⟩

end Nesto
